import Mathlib

set_option maxHeartbeats 1000000

/-!
Shallow embedding of the slug module of 21st-UIAgent
(source file src/unnamed/part_001): slug normalization, syntactic
validation, uniqueness resolution against an external oracle, and the
interactive availability checker with its module-level shared state.

JavaScript strings are modelled as Lean strings (lists of characters);
the only case-mapping the pipeline can observe inside [a-z0-9] is the
ASCII one, so toLowerCase is modelled on the ASCII range.  The
asynchronous oracle is modelled as a function from candidate strings to
the boolean that checkSlugUnique resolves with, and the unbounded
while-loop of generateUniqueSlug is given explicit fuel counting the
number of oracle queries it is allowed to make.
-/

/-- Characters matched by the character class [a-z0-9] used by the regexes of
generateSlug and isValidSlug. -/
def isSlugChar (c : Char) : Bool :=
  (decide ('a' ≤ c) && decide (c ≤ 'z')) || (decide ('0' ≤ c) && decide (c ≤ '9'))

/-- ASCII model of the toLowerCase() call in generateSlug (part_001 line 12). -/
def toLowerChar (c : Char) : Char :=
  if 'A' ≤ c ∧ c ≤ 'Z' then Char.ofNat (c.toNat + 32) else c

/-- ASCII alphanumeric characters: exactly the characters that survive the
lowercase-then-keep-[a-z0-9] pipeline of generateSlug. -/
def isAlphanumeric (c : Char) : Bool :=
  isSlugChar c || (decide ('A' ≤ c) && decide (c ≤ 'Z'))

/-- replace(/[^a-z0-9]+/g, "-") (part_001 line 13): every maximal run of
characters outside [a-z0-9] becomes a single hyphen. -/
def hyphenizeRuns : List Char → List Char
  | [] => []
  | c :: cs =>
    match cs with
    | [] => if isSlugChar c then [c] else ['-']
    | d :: _ =>
      if isSlugChar c then c :: hyphenizeRuns cs
      else if isSlugChar d then '-' :: hyphenizeRuns cs
      else hyphenizeRuns cs

/-- The trailing-hyphen half of replace(/^-+|-+$/g, "") (part_001 line 14):
remove the maximal run of hyphens at the end of the string. -/
def dropTrailingHyphens : List Char → List Char
  | [] => []
  | c :: cs =>
    match dropTrailingHyphens cs with
    | [] => if c = '-' then [] else [c]
    | r => c :: r

/-- replace(/^-+|-+$/g, "") (part_001 line 14): strip the leading and the
trailing run of hyphens. -/
def stripEdgeHyphens (l : List Char) : List Char :=
  dropTrailingHyphens (l.dropWhile (fun c => c = '-'))

/-- The third replace of generateSlug (part_001 line 15), whose pattern is a
run of hyphens and whose replacement is a single hyphen: collapse every run of
hyphens to one. -/
def collapseHyphens : List Char → List Char
  | [] => []
  | c :: cs =>
    match cs with
    | [] => [c]
    | d :: _ =>
      if c = '-' ∧ d = '-' then collapseHyphens cs
      else c :: collapseHyphens cs

/-- generateSlug (part_001 lines 10-16): lowercase, replace non-alphanumeric
runs by hyphens, strip edge hyphens, collapse repeated hyphens. -/
def generateSlug (name : String) : String :=
  ⟨collapseHyphens (stripEdgeHyphens (hyphenizeRuns (name.data.map toLowerChar)))⟩

/-- Matcher for the anchored regex of isValidSlug.  The boolean state records
whether at least one [a-z0-9] character of the current segment has been
consumed; a hyphen is accepted only directly after such a character, and the
string may end only after such a character. -/
def slugMatch : Bool → List Char → Bool
  | inSeg, [] => inSeg
  | inSeg, c :: cs =>
    if c = '-' then inSeg && slugMatch false cs
    else isSlugChar c && slugMatch true cs

/-- isValidSlug (part_001 lines 18-21): test against
the regex that accepts nonempty [a-z0-9] segments separated by single
hyphens. -/
def isValidSlug (slug : String) : Bool :=
  slugMatch false slug.data

/-- Characters that can occur in the output of the slug pipeline: [a-z0-9]
or the hyphen. -/
def slugOrDash (c : Char) : Bool :=
  isSlugChar c || decide (c = '-')

/-- No two adjacent hyphens occur in the list. -/
def NoDD (l : List Char) : Prop :=
  List.Chain' (fun a b => ¬(a = '-' ∧ b = '-')) l

/-- The language of the regex of isValidSlug, as a grammar:
one nonempty [a-z0-9] segment, followed by any number of groups of a hyphen
and a further nonempty [a-z0-9] segment. -/
inductive RegexSlug : List Char → Prop
  | seg (l : List Char) (hne : l ≠ []) (hch : ∀ c ∈ l, isSlugChar c = true) :
      RegexSlug l
  | cons (s l : List Char) (hne : s ≠ []) (hch : ∀ c ∈ s, isSlugChar c = true)
      (hrest : RegexSlug l) : RegexSlug (s ++ '-' :: l)

/-- The reply the supabase query of checkSlugUnique resolves with: either an
error object, or a data array of some length (the rows whose component_slug
equals the candidate). -/
inductive OracleReply where
  | failure
  | rows (count : Nat)
deriving DecidableEq

/-- checkSlugUnique (part_001 lines 29-41): on a query error, log and return
false; otherwise return whether the data array is empty. -/
def checkSlugUnique : OracleReply → Bool
  | OracleReply.failure => false
  | OracleReply.rows n => n == 0

/-- The candidate submitted to the oracle by the while-loop of
generateUniqueSlug on its (k+1)-st query: the bare base for k = 0 and
base-k for k ≥ 1 (part_001 lines 44 and 49). -/
def slugCandidate (base : String) : Nat → String
  | 0 => base
  | k + 1 => base ++ "-" ++ toString (k + 1)

/-- The while-loop of generateUniqueSlug (part_001 lines 48-52), with the
suffix counter explicit and fuel bounding the number of remaining oracle
queries.  Returns the resolved slug (none when fuel runs out, i.e. the loop is
still running) together with the list of candidates queried, in query
order. -/
def generateUniqueSlugAux (check : String → Bool) (base : String) :
    Nat → Nat → Option String × List String
  | _, 0 => (none, [])
  | suffix, fuel + 1 =>
    let newSlug := base ++ "-" ++ toString suffix
    if check newSlug then (some newSlug, [newSlug])
    else
      let r := generateUniqueSlugAux check base (suffix + 1) fuel
      (r.1, newSlug :: r.2)

/-- generateUniqueSlug (part_001 lines 43-55): query generateSlug(baseName)
first, then base-1, base-2, ... until the oracle reports the candidate free.
The extra fuel argument bounds the number of oracle queries (the source loop
itself has no bound); the returned trace lists the queried candidates in
order. -/
def generateUniqueSlug (check : String → Bool) (baseName : String) :
    Nat → Option String × List String
  | 0 => (none, [])
  | fuel + 1 =>
    let newSlug := generateSlug baseName
    if check newSlug then (some newSlug, [newSlug])
    else
      let r := generateUniqueSlugAux check (generateSlug baseName) 1 fuel
      (r.1, newSlug :: r.2)

/-- The observable state held by the three module-level atoms
slugAvailableAtom, slugCheckingAtom, slugErrorAtom (part_001 lines 6-8). -/
structure SlugState where
  slugAvailable : Option Bool
  slugChecking : Bool
  slugError : Option String
deriving DecidableEq

/-- The initial values of the three module-level atoms (part_001 lines 6-8):
available = null, checking = false, error = null. -/
def initialAtoms : SlugState :=
  ⟨none, false, none⟩

/-- The synchronous prefix of checkSlug before its await point
(part_001 lines 58-59): set checking, clear the error. -/
def checkSlugStart (st : SlugState) : SlugState :=
  { st with slugChecking := true, slugError := none }

/-- The continuation of checkSlug that runs when its oracle reply arrives
(part_001 lines 65-72): record availability, set the taken-error when the
reply says taken, clear checking.  It writes the shared atoms whenever it
runs, with no check that its query is still the most recent one. -/
def checkSlugResume (isUnique : Bool) (st : SlugState) : SlugState :=
  { st with
      slugAvailable := some isUnique,
      slugError := if isUnique then st.slugError else some "This slug is already taken",
      slugChecking := false }

/-- checkSlug (part_001 lines 57-73) run to completion with no interleaved
call: the final state, together with the number of oracle queries made. -/
def checkSlug (check : String → Bool) (slug : String) (st : SlugState) :
    SlugState × Nat :=
  let st1 := checkSlugStart st
  if isValidSlug slug then (checkSlugResume (check slug) st1, 1)
  else
    ({ st1 with
        slugAvailable := some false,
        slugError := some "Invalid slug format",
        slugChecking := false }, 0)

/-- useComponentSlug (part_001 lines 23-27) reads the three module-level atoms
through useAtom: every hook instance, whatever its identity, observes the one
shared store. -/
def useComponentSlugView (store : SlugState) (_instance : Nat) : SlugState :=
  store

/-! Character-level facts. -/

theorem isSlugChar_iff (c : Char) :
    isSlugChar c = true ↔ ((97 ≤ c.toNat ∧ c.toNat ≤ 122) ∨ (48 ≤ c.toNat ∧ c.toNat ≤ 57)) := by
  unfold isSlugChar
  simp only [Bool.or_eq_true, Bool.and_eq_true, decide_eq_true_eq]
  exact Iff.rfl

theorem isSlugChar_ne_dash {c : Char} (h : isSlugChar c = true) : c ≠ '-' := by
  intro he
  subst he
  exact absurd h (by decide)

theorem toNat_ofNat_add32 (c : Char) (h1 : 'A' ≤ c) (h2 : c ≤ 'Z') :
    (Char.ofNat (c.toNat + 32)).toNat = c.toNat + 32 := by
  have l1 : 65 ≤ c.toNat := h1
  have l2 : c.toNat ≤ 90 := h2
  have hv : Nat.isValidChar (c.toNat + 32) := Or.inl (by omega)
  rw [Char.ofNat, dif_pos hv]
  rfl

theorem toLowerChar_fixed {c : Char} (h : slugOrDash c = true) : toLowerChar c = c := by
  unfold toLowerChar
  rw [if_neg]
  rintro ⟨h1, h2⟩
  have l1 : 65 ≤ c.toNat := h1
  have l2 : c.toNat ≤ 90 := h2
  unfold slugOrDash at h
  simp only [Bool.or_eq_true, decide_eq_true_eq] at h
  rcases h with h | h
  · rcases (isSlugChar_iff c).mp h with ⟨a, b⟩ | ⟨a, b⟩ <;> omega
  · subst h
    have : ('-').toNat = 45 := rfl
    omega

theorem isSlugChar_toLowerChar (c : Char) : isSlugChar (toLowerChar c) = isAlphanumeric c := by
  by_cases h : 'A' ≤ c ∧ c ≤ 'Z'
  · have l1 : 65 ≤ c.toNat := h.1
    have l2 : c.toNat ≤ 90 := h.2
    have ht := toNat_ofNat_add32 c h.1 h.2
    unfold toLowerChar
    rw [if_pos h]
    have hs : isSlugChar (Char.ofNat (c.toNat + 32)) = true := by
      rw [isSlugChar_iff, ht]
      left
      omega
    rw [hs]
    unfold isAlphanumeric
    rw [decide_eq_true h.1, decide_eq_true h.2]
    simp
  · unfold toLowerChar
    rw [if_neg h]
    unfold isAlphanumeric
    have hf : (decide ('A' ≤ c) && decide (c ≤ 'Z')) = false := by
      by_cases h1 : 'A' ≤ c
      · have h2 : ¬(c ≤ 'Z') := fun hz => h ⟨h1, hz⟩
        rw [decide_eq_false h2, Bool.and_false]
      · rw [decide_eq_false h1, Bool.false_and]
    rw [hf]
    simp

theorem slugOrDash_upper_false {c : Char} (h1 : 'A' ≤ c) (h2 : c ≤ 'Z') :
    slugOrDash c = false := by
  have l1 : 65 ≤ c.toNat := h1
  have l2 : c.toNat ≤ 90 := h2
  unfold slugOrDash
  have hs : isSlugChar c = false := by
    rw [Bool.eq_false_iff]
    intro hT
    rcases (isSlugChar_iff c).mp hT with ⟨a, b⟩ | ⟨a, b⟩ <;> omega
  have hd2 : decide (c = '-') = false := by
    rw [decide_eq_false_iff_not]
    intro he
    subst he
    exact absurd h1 (by decide)
  rw [hs, hd2]
  rfl

/-! Equation lemmas for the pipeline stages. -/

theorem hyphenizeRuns_nil : hyphenizeRuns [] = [] := rfl

theorem hyphenizeRuns_singleton (c : Char) :
    hyphenizeRuns [c] = if isSlugChar c then [c] else ['-'] := rfl

theorem hyphenizeRuns_cons_cons (c d : Char) (cs : List Char) :
    hyphenizeRuns (c :: d :: cs) =
      if isSlugChar c then c :: hyphenizeRuns (d :: cs)
      else if isSlugChar d then '-' :: hyphenizeRuns (d :: cs)
      else hyphenizeRuns (d :: cs) := rfl

theorem collapseHyphens_nil : collapseHyphens [] = [] := rfl

theorem collapseHyphens_singleton (c : Char) : collapseHyphens [c] = [c] := rfl

theorem collapseHyphens_cons_cons (c d : Char) (cs : List Char) :
    collapseHyphens (c :: d :: cs) =
      if c = '-' ∧ d = '-' then collapseHyphens (d :: cs)
      else c :: collapseHyphens (d :: cs) := rfl

theorem dropTrailingHyphens_nil : dropTrailingHyphens [] = [] := rfl

theorem dropTrailingHyphens_cons (c : Char) (cs : List Char) :
    dropTrailingHyphens (c :: cs) =
      match dropTrailingHyphens cs with
      | [] => if c = '-' then [] else [c]
      | r => c :: r := rfl

theorem slugMatch_nil (b : Bool) : slugMatch b [] = b := rfl

theorem slugMatch_cons (b : Bool) (c : Char) (cs : List Char) :
    slugMatch b (c :: cs) =
      if c = '-' then b && slugMatch false cs else isSlugChar c && slugMatch true cs := rfl

/-! List-level facts about the pipeline stages. -/

theorem getLast?_cons_ne_nil {a : Char} {l : List Char} (h : l ≠ []) :
    (a :: l).getLast? = l.getLast? := by
  cases l with
  | nil => exact absurd rfl h
  | cons x xs => exact List.getLast?_cons_cons

theorem noDD_tail {c : Char} {cs : List Char} (h : NoDD (c :: cs)) : NoDD cs :=
  List.Chain'.tail h

theorem noDD_cons_iff {c : Char} {cs : List Char} :
    NoDD (c :: cs) ↔ (∀ d, cs.head? = some d → ¬(c = '-' ∧ d = '-')) ∧ NoDD cs := by
  unfold NoDD
  rw [List.chain'_cons']
  constructor
  · rintro ⟨h1, h2⟩
    exact ⟨fun d hd => h1 d hd, h2⟩
  · rintro ⟨h1, h2⟩
    exact ⟨fun d hd => h1 d hd, h2⟩

theorem hyphenizeRuns_chars : ∀ l : List Char, ∀ c ∈ hyphenizeRuns l, slugOrDash c = true := by
  intro l
  induction l using hyphenizeRuns.induct with
  | case1 =>
    intro c hc
    simp [hyphenizeRuns_nil] at hc
  | case2 d hd =>
    intro c hc
    rw [hyphenizeRuns_singleton, if_pos hd] at hc
    rw [List.mem_singleton] at hc
    subst hc
    simp [slugOrDash, hd]
  | case3 d hd =>
    intro c hc
    rw [hyphenizeRuns_singleton, if_neg hd] at hc
    rw [List.mem_singleton] at hc
    subst hc
    simp [slugOrDash]
  | case4 d d1 t hd ih =>
    intro c hc
    rw [hyphenizeRuns_cons_cons, if_pos hd] at hc
    rcases List.mem_cons.mp hc with h | h
    · subst h
      simp [slugOrDash, hd]
    · exact ih c h
  | case5 d d1 t hd hd1 ih =>
    intro c hc
    rw [hyphenizeRuns_cons_cons, if_neg hd, if_pos hd1] at hc
    rcases List.mem_cons.mp hc with h | h
    · subst h
      simp [slugOrDash]
    · exact ih c h
  | case6 d d1 t hd hd1 ih =>
    intro c hc
    rw [hyphenizeRuns_cons_cons, if_neg hd, if_neg hd1] at hc
    exact ih c hc

theorem hyphenizeRuns_head_slug {b : Char} (bs : List Char) (hb : isSlugChar b = true) :
    (hyphenizeRuns (b :: bs)).head? = some b := by
  cases bs with
  | nil => rw [hyphenizeRuns_singleton, if_pos hb]; rfl
  | cons x xs =>
    rw [hyphenizeRuns_cons_cons, if_pos hb]
    rfl

theorem hyphenizeRuns_noDD : ∀ l : List Char, NoDD (hyphenizeRuns l) := by
  intro l
  induction l using hyphenizeRuns.induct with
  | case1 => simp [hyphenizeRuns_nil, NoDD]
  | case2 d hd => rw [hyphenizeRuns_singleton, if_pos hd]; simp [NoDD]
  | case3 d hd => rw [hyphenizeRuns_singleton, if_neg hd]; simp [NoDD]
  | case4 d d1 t hd ih =>
    rw [hyphenizeRuns_cons_cons, if_pos hd]
    rw [noDD_cons_iff]
    refine ⟨?_, ih⟩
    rintro e he ⟨hdd, rfl⟩
    exact isSlugChar_ne_dash hd hdd
  | case5 d d1 t hd hd1 ih =>
    rw [hyphenizeRuns_cons_cons, if_neg hd, if_pos hd1]
    rw [noDD_cons_iff]
    refine ⟨?_, ih⟩
    rintro e he ⟨-, rfl⟩
    rw [hyphenizeRuns_head_slug t hd1] at he
    exact isSlugChar_ne_dash hd1 (Option.some.inj he)
  | case6 d d1 t hd hd1 ih =>
    rw [hyphenizeRuns_cons_cons, if_neg hd, if_neg hd1]
    exact ih

theorem hyphenizeRuns_mem {x : Char} (hx : isSlugChar x = true) :
    ∀ l : List Char, x ∈ l → x ∈ hyphenizeRuns l := by
  intro l
  induction l using hyphenizeRuns.induct with
  | case1 =>
    intro h
    simp at h
  | case2 d hd =>
    intro h
    rw [List.mem_singleton] at h
    subst h
    rw [hyphenizeRuns_singleton, if_pos hx]
    exact List.mem_singleton.mpr rfl
  | case3 d hd =>
    intro h
    rw [List.mem_singleton] at h
    subst h
    exact absurd hx hd
  | case4 d d1 t hd ih =>
    intro h
    rw [hyphenizeRuns_cons_cons, if_pos hd]
    rcases List.mem_cons.mp h with h | h
    · subst h
      exact List.mem_cons_self _ _
    · exact List.mem_cons_of_mem _ (ih h)
  | case5 d d1 t hd hd1 ih =>
    intro h
    rw [hyphenizeRuns_cons_cons, if_neg hd, if_pos hd1]
    rcases List.mem_cons.mp h with h | h
    · subst h
      exact absurd hx hd
    · exact List.mem_cons_of_mem _ (ih h)
  | case6 d d1 t hd hd1 ih =>
    intro h
    rw [hyphenizeRuns_cons_cons, if_neg hd, if_neg hd1]
    rcases List.mem_cons.mp h with h | h
    · subst h
      exact absurd hx hd
    · exact ih h

theorem hyphenizeRuns_nonAlnum :
    ∀ l : List Char, (∀ c ∈ l, isSlugChar c = false) →
      hyphenizeRuns l = [] ∨ hyphenizeRuns l = ['-'] := by
  intro l
  induction l using hyphenizeRuns.induct with
  | case1 =>
    intro _
    left
    rfl
  | case2 d hd =>
    intro hall
    exact absurd (hall d (List.mem_singleton.mpr rfl)) (by simp [hd])
  | case3 d hd =>
    intro _
    right
    rw [hyphenizeRuns_singleton, if_neg hd]
  | case4 d d1 t hd ih =>
    intro hall
    exact absurd (hall d (List.mem_cons_self _ _)) (by simp [hd])
  | case5 d d1 t hd hd1 ih =>
    intro hall
    exact absurd (hall d1 (List.mem_cons_of_mem _ (List.mem_cons_self _ _))) (by simp [hd1])
  | case6 d d1 t hd hd1 ih =>
    intro hall
    rw [hyphenizeRuns_cons_cons, if_neg hd, if_neg hd1]
    exact ih (fun c hc => hall c (List.mem_cons_of_mem _ hc))

theorem hyphenizeRuns_id :
    ∀ l : List Char, (∀ c ∈ l, slugOrDash c = true) → NoDD l → hyphenizeRuns l = l := by
  intro l
  induction l using hyphenizeRuns.induct with
  | case1 =>
    intro _ _
    rfl
  | case2 d hd =>
    intro _ _
    rw [hyphenizeRuns_singleton, if_pos hd]
  | case3 d hd =>
    intro hall _
    have := hall d (List.mem_singleton.mpr rfl)
    unfold slugOrDash at this
    rw [Bool.or_eq_true, decide_eq_true_eq] at this
    rcases this with h | h
    · exact absurd h hd
    · subst h
      rw [hyphenizeRuns_singleton, if_neg hd]
  | case4 d d1 t hd ih =>
    intro hall hdd
    rw [hyphenizeRuns_cons_cons, if_pos hd]
    rw [ih (fun c hc => hall c (List.mem_cons_of_mem _ hc)) (noDD_tail hdd)]
  | case5 d d1 t hd hd1 ih =>
    intro hall hdd
    have hdash : d = '-' := by
      have := hall d (List.mem_cons_self _ _)
      unfold slugOrDash at this
      rw [Bool.or_eq_true, decide_eq_true_eq] at this
      rcases this with h | h
      · exact absurd h hd
      · exact h
    subst hdash
    rw [hyphenizeRuns_cons_cons, if_neg hd, if_pos hd1]
    rw [ih (fun c hc => hall c (List.mem_cons_of_mem _ hc)) (noDD_tail hdd)]
  | case6 d d1 t hd hd1 ih =>
    intro hall hdd
    have hdash : d = '-' := by
      have := hall d (List.mem_cons_self _ _)
      unfold slugOrDash at this
      rw [Bool.or_eq_true, decide_eq_true_eq] at this
      rcases this with h | h
      · exact absurd h hd
      · exact h
    have hdash1 : d1 = '-' := by
      have := hall d1 (List.mem_cons_of_mem _ (List.mem_cons_self _ _))
      unfold slugOrDash at this
      rw [Bool.or_eq_true, decide_eq_true_eq] at this
      rcases this with h | h
      · exact absurd h hd1
      · exact h
    subst hdash
    subst hdash1
    rcases noDD_cons_iff.mp hdd with ⟨hpair, _⟩
    exact absurd (hpair '-' rfl) (by simp)

/-! Facts about the edge-stripping stages. -/

theorem dropWhileDash_head (l : List Char) :
    ((l.dropWhile (fun c => c = '-')).head? ≠ some '-') := by
  induction l with
  | nil => simp
  | cons c cs ih =>
    by_cases hc : c = '-'
    · rw [List.dropWhile_cons, if_pos (by simpa using hc)]
      exact ih
    · rw [List.dropWhile_cons, if_neg (by simpa using hc)]
      simpa using hc

theorem dropWhileDash_id {l : List Char} (h : l.head? ≠ some '-') :
    l.dropWhile (fun c => c = '-') = l := by
  cases l with
  | nil => rfl
  | cons c cs =>
    have hc : c ≠ '-' := by simpa using h
    rw [List.dropWhile_cons, if_neg (by simpa using hc)]

theorem dropWhileDash_mem {x : Char} {l : List Char} (hx : x ≠ '-') (h : x ∈ l) :
    x ∈ l.dropWhile (fun c => c = '-') := by
  induction l with
  | nil => simp at h
  | cons c cs ih =>
    by_cases hc : c = '-'
    · rw [List.dropWhile_cons, if_pos (by simpa using hc)]
      rcases List.mem_cons.mp h with h | h
      · exact absurd (h.trans hc) hx
      · exact ih h
    · rw [List.dropWhile_cons, if_neg (by simpa using hc)]
      exact h

theorem dropTrailingHyphens_sublist (l : List Char) :
    (dropTrailingHyphens l).Sublist l := by
  induction l using dropTrailingHyphens.induct with
  | case1 => exact List.Sublist.refl []
  | case2 t ht ih =>
    rw [dropTrailingHyphens_cons, ht]
    exact List.nil_sublist _
  | case3 d t ht hd ih =>
    rw [dropTrailingHyphens_cons, ht, if_neg hd]
    exact (List.nil_sublist t).cons₂ d
  | case4 d t ht ih =>
    rw [dropTrailingHyphens_cons]
    cases hr : dropTrailingHyphens t with
    | nil => exact absurd hr ht
    | cons x xs =>
      rw [hr] at ih
      exact ih.cons₂ d

theorem dropTrailingHyphens_getLast (l : List Char) :
    (dropTrailingHyphens l).getLast? ≠ some '-' := by
  induction l using dropTrailingHyphens.induct with
  | case1 =>
    rw [dropTrailingHyphens_nil]
    simp
  | case2 t ht ih =>
    rw [dropTrailingHyphens_cons, ht]
    simp
  | case3 d t ht hd ih =>
    rw [dropTrailingHyphens_cons, ht, if_neg hd]
    simpa using hd
  | case4 d t ht ih =>
    rw [dropTrailingHyphens_cons]
    cases hr : dropTrailingHyphens t with
    | nil => exact absurd hr ht
    | cons x xs =>
      rw [hr] at ih
      rw [getLast?_cons_ne_nil (List.cons_ne_nil x xs)]
      exact ih

theorem dropTrailingHyphens_head (l : List Char) :
    dropTrailingHyphens l = [] ∨ (dropTrailingHyphens l).head? = l.head? := by
  induction l using dropTrailingHyphens.induct with
  | case1 => left; rfl
  | case2 t ht ih =>
    left
    rw [dropTrailingHyphens_cons, ht]
    rfl
  | case3 d t ht hd ih =>
    right
    rw [dropTrailingHyphens_cons, ht]
    show (if d = '-' then [] else [d]).head? = _
    rw [if_neg hd]
    rfl
  | case4 d t ht ih =>
    right
    rw [dropTrailingHyphens_cons]
    cases hr : dropTrailingHyphens t with
    | nil => exact absurd hr ht
    | cons x xs => rfl

theorem dropTrailingHyphens_mem {x : Char} (hx : x ≠ '-') :
    ∀ l : List Char, x ∈ l → x ∈ dropTrailingHyphens l := by
  intro l
  induction l using dropTrailingHyphens.induct with
  | case1 =>
    intro h
    simp at h
  | case2 t ht ih =>
    intro h
    rcases List.mem_cons.mp h with h | h
    · exact absurd h hx
    · have := ih h
      rw [ht] at this
      simp at this
  | case3 d t ht hd ih =>
    intro h
    rcases List.mem_cons.mp h with h | h
    · subst h
      rw [dropTrailingHyphens_cons, ht, if_neg hd]
      exact List.mem_singleton.mpr rfl
    · have := ih h
      rw [ht] at this
      simp at this
  | case4 d t ht ih =>
    intro h
    rw [dropTrailingHyphens_cons]
    cases hr : dropTrailingHyphens t with
    | nil => exact absurd hr ht
    | cons y ys =>
      rcases List.mem_cons.mp h with h | h
      · subst h
        exact List.mem_cons_self _ _
      · have := ih h
        rw [hr] at this
        exact List.mem_cons_of_mem _ this

theorem dropTrailingHyphens_id :
    ∀ l : List Char, l.getLast? ≠ some '-' → dropTrailingHyphens l = l := by
  intro l
  induction l using dropTrailingHyphens.induct with
  | case1 =>
    intro _
    rfl
  | case2 t ht ih =>
    intro h
    cases t with
    | nil => simp at h
    | cons y ys =>
      rw [getLast?_cons_ne_nil (List.cons_ne_nil y ys)] at h
      have := ih h
      rw [ht] at this
      exact absurd this.symm (List.cons_ne_nil y ys)
  | case3 d t ht hd ih =>
    intro h
    cases t with
    | nil =>
      rw [dropTrailingHyphens_cons, ht, if_neg hd]
    | cons y ys =>
      rw [getLast?_cons_ne_nil (List.cons_ne_nil y ys)] at h
      have := ih h
      rw [ht] at this
      exact absurd this.symm (List.cons_ne_nil y ys)
  | case4 d t ht ih =>
    intro h
    cases t with
    | nil =>
      exact absurd rfl ht
    | cons y ys =>
      rw [getLast?_cons_ne_nil (List.cons_ne_nil y ys)] at h
      rw [dropTrailingHyphens_cons, ih h]

theorem collapseHyphens_id : ∀ l : List Char, NoDD l → collapseHyphens l = l := by
  intro l
  induction l using collapseHyphens.induct with
  | case1 =>
    intro _
    rfl
  | case2 d =>
    intro _
    rfl
  | case3 d d1 t hdd ih =>
    intro h
    rcases noDD_cons_iff.mp h with ⟨hpair, _⟩
    exact absurd (hpair d1 rfl) (by simpa using hdd)
  | case4 d d1 t hdd ih =>
    intro h
    rw [collapseHyphens_cons_cons, if_neg hdd]
    rw [ih (noDD_tail h)]

/-! Characterization of the validator. -/

theorem slugMatch_eq_true_iff :
    ∀ (l : List Char) (b : Bool), slugMatch b l = true ↔
      ((b = false → l ≠ [] ∧ l.head? ≠ some '-') ∧
       (∀ c ∈ l, slugOrDash c = true) ∧ l.getLast? ≠ some '-' ∧ NoDD l) := by
  intro l
  induction l with
  | nil =>
    intro b
    cases b with
    | false => simp [slugMatch_nil]
    | true => simp [slugMatch_nil, NoDD]
  | cons c cs ih =>
    intro b
    by_cases hc : c = '-'
    · subst hc
      rw [slugMatch_cons, if_pos rfl]
      cases b with
      | false =>
        rw [Bool.false_and]
        constructor
        · intro h
          simp at h
        · rintro ⟨h1, -⟩
          exact ((h1 rfl).2 rfl).elim
      | true =>
        rw [Bool.true_and, ih false]
        cases cs with
        | nil =>
          constructor
          · rintro ⟨h1, -⟩
            exact absurd rfl (h1 rfl).1
          · rintro ⟨-, -, hlast, -⟩
            exact absurd rfl hlast
        | cons d ds =>
          constructor
          · rintro ⟨h1, hchars, hlast, hdd⟩
            obtain ⟨-, hhead⟩ := h1 rfl
            refine ⟨fun h => Bool.noConfusion h, ?_, ?_, ?_⟩
            · intro x hx
              rcases List.mem_cons.mp hx with h | h
              · subst h
                simp [slugOrDash]
              · exact hchars x h
            · rw [getLast?_cons_ne_nil (List.cons_ne_nil d ds)]
              exact hlast
            · rw [noDD_cons_iff]
              refine ⟨?_, hdd⟩
              rintro e he ⟨-, rfl⟩
              exact hhead he
          · rintro ⟨-, hchars, hlast, hdd⟩
            rcases noDD_cons_iff.mp hdd with ⟨hpair, hdd2⟩
            refine ⟨fun _ => ⟨List.cons_ne_nil d ds, ?_⟩, fun x hx => hchars x (List.mem_cons_of_mem _ hx), ?_, hdd2⟩
            · rw [List.head?_cons]
              intro he
              exact hpair d rfl ⟨rfl, Option.some.inj he⟩
            · rw [getLast?_cons_ne_nil (List.cons_ne_nil d ds)] at hlast
              exact hlast
    · rw [slugMatch_cons, if_neg hc, Bool.and_eq_true, ih true]
      have hsod : isSlugChar c = true ↔ slugOrDash c = true := by
        unfold slugOrDash
        rw [Bool.or_eq_true, decide_eq_true_eq]
        constructor
        · intro h
          left
          exact h
        · rintro (h | h)
          · exact h
          · exact absurd h hc
      cases cs with
      | nil =>
        constructor
        · rintro ⟨h1, -⟩
          refine ⟨fun _ => ⟨List.cons_ne_nil c [], by simpa using hc⟩, ?_, by simpa using hc, List.chain'_singleton c⟩
          intro x hx
          rw [List.mem_singleton] at hx
          subst hx
          exact hsod.mp h1
        · rintro ⟨-, hchars, -, -⟩
          refine ⟨hsod.mpr (hchars c (List.mem_singleton.mpr rfl)), ?_⟩
          exact ⟨fun h => Bool.noConfusion h, by simp, by simp, List.chain'_nil⟩
      | cons d ds =>
        constructor
        · rintro ⟨h1, -, hchars, hlast, hdd⟩
          refine ⟨fun _ => ⟨List.cons_ne_nil c _, by simpa using hc⟩, ?_, ?_, ?_⟩
          · intro x hx
            rcases List.mem_cons.mp hx with h | h
            · subst h
              exact hsod.mp h1
            · exact hchars x h
          · rw [getLast?_cons_ne_nil (List.cons_ne_nil d ds)]
            exact hlast
          · rw [noDD_cons_iff]
            refine ⟨?_, hdd⟩
            rintro e he ⟨hdash, -⟩
            exact hc hdash
        · rintro ⟨-, hchars, hlast, hdd⟩
          refine ⟨hsod.mpr (hchars c (List.mem_cons_self _ _)), fun h => Bool.noConfusion h, fun x hx => hchars x (List.mem_cons_of_mem _ hx), ?_, noDD_tail hdd⟩
          rw [getLast?_cons_ne_nil (List.cons_ne_nil d ds)] at hlast
          exact hlast

/-! Properties of the full normalization pipeline. -/

theorem generateSlug_data (x : String) :
    (generateSlug x).data = collapseHyphens (stripEdgeHyphens (hyphenizeRuns (x.data.map toLowerChar))) := rfl

theorem noDD_dropWhileDash {l : List Char} (h : NoDD l) :
    NoDD (l.dropWhile (fun c => c = '-')) := by
  induction l with
  | nil => exact h
  | cons c cs ih =>
    by_cases hc : c = '-'
    · rw [List.dropWhile_cons, if_pos (by simpa using hc)]
      exact ih (noDD_tail h)
    · rw [List.dropWhile_cons, if_neg (by simpa using hc)]
      exact h

theorem noDD_dropTrailingHyphens : ∀ l : List Char, NoDD l → NoDD (dropTrailingHyphens l) := by
  intro l
  induction l using dropTrailingHyphens.induct with
  | case1 =>
    intro h
    exact h
  | case2 t ht ih =>
    intro h
    rw [dropTrailingHyphens_cons, ht]
    exact List.chain'_nil
  | case3 d t ht hd ih =>
    intro h
    rw [dropTrailingHyphens_cons, ht]
    show NoDD (if d = '-' then [] else [d])
    rw [if_neg hd]
    exact List.chain'_singleton d
  | case4 d t ht ih =>
    intro h
    rw [dropTrailingHyphens_cons]
    cases hr : dropTrailingHyphens t with
    | nil => exact absurd hr ht
    | cons y ys =>
      rw [noDD_cons_iff]
      constructor
      · rintro e he hpair
        rcases dropTrailingHyphens_head t with h2 | h2
        · exact absurd hr (by rw [h2]; exact fun hx => List.cons_ne_nil y ys hx.symm)
        · rw [hr] at h2
          rw [List.head?_cons] at he
          rcases noDD_cons_iff.mp h with ⟨hp, -⟩
          cases t with
          | nil =>
            rw [dropTrailingHyphens_nil] at hr
            exact List.cons_ne_nil y ys hr.symm
          | cons z zs =>
            rw [List.head?_cons] at h2
            exact hp z rfl ⟨hpair.1, by rw [← Option.some.inj h2, Option.some.inj he]; exact hpair.2⟩
      · have := ih (noDD_tail h)
        rw [hr] at this
        exact this

theorem pipeline_noDD (m : List Char) : NoDD (stripEdgeHyphens (hyphenizeRuns m)) := by
  unfold stripEdgeHyphens
  exact noDD_dropTrailingHyphens _ (noDD_dropWhileDash (hyphenizeRuns_noDD m))

theorem pipeline_collapse_eq (m : List Char) :
    collapseHyphens (stripEdgeHyphens (hyphenizeRuns m)) = stripEdgeHyphens (hyphenizeRuns m) :=
  collapseHyphens_id _ (pipeline_noDD m)

theorem pipeline_props (m : List Char) :
    (∀ c ∈ stripEdgeHyphens (hyphenizeRuns m), slugOrDash c = true) ∧
      (stripEdgeHyphens (hyphenizeRuns m)).head? ≠ some '-' ∧
      (stripEdgeHyphens (hyphenizeRuns m)).getLast? ≠ some '-' ∧
      NoDD (stripEdgeHyphens (hyphenizeRuns m)) := by
  refine ⟨?_, ?_, ?_, pipeline_noDD m⟩
  · intro c hc
    unfold stripEdgeHyphens at hc
    have h1 := (dropTrailingHyphens_sublist _).subset hc
    have h2 := (List.dropWhile_sublist _).subset h1
    exact hyphenizeRuns_chars m c h2
  · unfold stripEdgeHyphens
    rcases dropTrailingHyphens_head ((hyphenizeRuns m).dropWhile (fun c => c = '-')) with h | h
    · rw [h]
      simp
    · rw [h]
      exact dropWhileDash_head _
  · unfold stripEdgeHyphens
    exact dropTrailingHyphens_getLast _

theorem generateSlug_valid_or_empty (x : String) :
    isValidSlug (generateSlug x) = true ∨ generateSlug x = "" := by
  obtain ⟨hchars, hhead, hlast, hdd⟩ := pipeline_props (x.data.map toLowerChar)
  have hdata : (generateSlug x).data = stripEdgeHyphens (hyphenizeRuns (x.data.map toLowerChar)) := by
    rw [generateSlug_data, pipeline_collapse_eq]
  cases he : stripEdgeHyphens (hyphenizeRuns (x.data.map toLowerChar)) with
  | nil =>
    right
    apply String.ext
    rw [hdata, he]
  | cons y ys =>
    left
    unfold isValidSlug
    rw [hdata, he]
    rw [he] at hchars hhead hlast hdd
    exact (slugMatch_eq_true_iff _ false).mpr
      ⟨fun _ => ⟨List.cons_ne_nil y ys, hhead⟩, hchars, hlast, hdd⟩

theorem map_toLowerChar_id {l : List Char} (h : ∀ c ∈ l, slugOrDash c = true) :
    l.map toLowerChar = l := by
  induction l with
  | nil => rfl
  | cons c cs ih =>
    rw [List.map_cons, toLowerChar_fixed (h c (List.mem_cons_self _ _)),
      ih (fun d hd => h d (List.mem_cons_of_mem _ hd))]

theorem generateSlug_of_valid {s : String} (h : isValidSlug s = true) : generateSlug s = s := by
  have hr := (slugMatch_eq_true_iff s.data false).mp h
  have hchars := hr.2.1
  have hlast := hr.2.2.1
  have hdd := hr.2.2.2
  have hhead := (hr.1 rfl).2
  apply String.ext
  rw [generateSlug_data, map_toLowerChar_id hchars, hyphenizeRuns_id _ hchars hdd]
  unfold stripEdgeHyphens
  rw [dropWhileDash_id hhead, dropTrailingHyphens_id _ hlast, collapseHyphens_id _ hdd]

theorem generateSlug_empty_iff (x : String) :
    generateSlug x = "" ↔ ∀ c ∈ x.data, isAlphanumeric c = false := by
  constructor
  · intro h c hc
    rw [Bool.eq_false_iff]
    intro halnum
    have hy : isSlugChar (toLowerChar c) = true := by
      rw [isSlugChar_toLowerChar]
      exact halnum
    have hm : toLowerChar c ∈ x.data.map toLowerChar := List.mem_map_of_mem toLowerChar hc
    have h1 : toLowerChar c ∈ hyphenizeRuns (x.data.map toLowerChar) :=
      hyphenizeRuns_mem hy _ hm
    have hnd : toLowerChar c ≠ '-' := isSlugChar_ne_dash hy
    have h2 := dropWhileDash_mem hnd h1
    have h3 := dropTrailingHyphens_mem hnd _ h2
    have hd : (generateSlug x).data = [] := by
      rw [h]
    rw [generateSlug_data, pipeline_collapse_eq] at hd
    unfold stripEdgeHyphens at hd
    rw [hd] at h3
    simp at h3
  · intro h
    have hm : ∀ c ∈ x.data.map toLowerChar, isSlugChar c = false := by
      intro c hc
      rcases List.mem_map.mp hc with ⟨d, hd, rfl⟩
      rw [isSlugChar_toLowerChar]
      exact h d hd
    apply String.ext
    rw [generateSlug_data, pipeline_collapse_eq]
    rcases hyphenizeRuns_nonAlnum _ hm with he | he
    · unfold stripEdgeHyphens
      rw [he]
      rfl
    · unfold stripEdgeHyphens
      rw [he]
      rfl

/-! Equivalence of the validator with the segment grammar of its regex. -/

theorem slugMatch_append_seg :
    ∀ (s : List Char), (∀ c ∈ s, isSlugChar c = true) →
      ∀ (rest : List Char) (b : Bool), slugMatch b (s ++ rest) =
        if s = [] then slugMatch b rest else slugMatch true rest := by
  intro s
  induction s with
  | nil =>
    intro _ rest b
    rw [if_pos rfl]
    rfl
  | cons c cs ih =>
    intro hall rest b
    rw [if_neg (List.cons_ne_nil c cs)]
    have hc := hall c (List.mem_cons_self _ _)
    rw [List.cons_append, slugMatch_cons, if_neg (isSlugChar_ne_dash hc), hc, Bool.true_and]
    rw [ih (fun d hd => hall d (List.mem_cons_of_mem _ hd)) rest true]
    by_cases hcs : cs = []
    · rw [if_pos hcs]
    · rw [if_neg hcs]

theorem regexSlug_slugMatch {l : List Char} (h : RegexSlug l) : slugMatch false l = true := by
  induction h with
  | seg s hne hch =>
    rw [show s = s ++ [] from (List.append_nil s).symm, slugMatch_append_seg s hch [] false,
      if_neg hne]
    rfl
  | cons s t hne hch hrest ih =>
    rw [slugMatch_append_seg s hch ('-' :: t) false, if_neg hne, slugMatch_cons, if_pos rfl,
      Bool.true_and]
    exact ih

theorem slugMatch_true_decomp :
    ∀ l : List Char, slugMatch true l = true →
      ∃ s rest, l = s ++ rest ∧ (∀ c ∈ s, isSlugChar c = true) ∧
        (rest = [] ∨ ∃ r2, rest = '-' :: r2 ∧ slugMatch false r2 = true) := by
  intro l
  induction l with
  | nil =>
    intro _
    exact ⟨[], [], rfl, by simp, Or.inl rfl⟩
  | cons c cs ih =>
    intro h
    rw [slugMatch_cons] at h
    by_cases hc : c = '-'
    · rw [if_pos hc, Bool.true_and] at h
      subst hc
      exact ⟨[], '-' :: cs, rfl, by simp, Or.inr ⟨cs, rfl, h⟩⟩
    · rw [if_neg hc, Bool.and_eq_true] at h
      obtain ⟨s, rest, heq, hall, hrest⟩ := ih h.2
      refine ⟨c :: s, rest, by rw [List.cons_append, heq], ?_, hrest⟩
      intro d hd
      rcases List.mem_cons.mp hd with h2 | h2
      · subst h2
        exact h.1
      · exact hall d h2

theorem slugMatch_regexSlug : ∀ n (l : List Char), l.length ≤ n →
    slugMatch false l = true → RegexSlug l := by
  intro n
  induction n with
  | zero =>
    intro l hlen h
    rw [Nat.le_zero, List.length_eq_zero] at hlen
    subst hlen
    exact absurd h (by simp [slugMatch_nil])
  | succ n ih =>
    intro l hlen h
    cases l with
    | nil => exact absurd h (by simp [slugMatch_nil])
    | cons c cs =>
      rw [slugMatch_cons] at h
      by_cases hc : c = '-'
      · rw [if_pos hc, Bool.false_and] at h
        exact absurd h (by simp)
      · rw [if_neg hc, Bool.and_eq_true] at h
        obtain ⟨s, rest, heq, hall, hrest⟩ := slugMatch_true_decomp cs h.2
        rcases hrest with hrest | ⟨r2, hr2, hm2⟩
        · subst hrest
          rw [List.append_nil] at heq
          subst heq
          refine RegexSlug.seg (c :: cs) (List.cons_ne_nil c cs) ?_
          intro d hd
          rcases List.mem_cons.mp hd with h2 | h2
          · subst h2
            exact h.1
          · exact hall d h2
        · subst hr2
          subst heq
          have hlen2 : r2.length ≤ n := by
            have := hlen
            simp only [List.length_cons, List.length_append] at this
            omega
          have hreg := ih r2 hlen2 hm2
          have : c :: (s ++ '-' :: r2) = (c :: s) ++ '-' :: r2 := by
            rw [List.cons_append]
          rw [this]
          refine RegexSlug.cons (c :: s) r2 (List.cons_ne_nil c s) ?_ hreg
          intro d hd
          rcases List.mem_cons.mp hd with h2 | h2
          · subst h2
            exact h.1
          · exact hall d h2

theorem isValidSlug_iff_regexSlug (s : String) :
    isValidSlug s = true ↔ RegexSlug s.data := by
  constructor
  · intro h
    exact slugMatch_regexSlug s.data.length s.data (Nat.le_refl _) h
  · intro h
    exact regexSlug_slugMatch h

/-! Facts about the uniqueness resolver loop. -/

theorem generateUniqueSlugAux_zero (check : String → Bool) (base : String) (suffix : Nat) :
    generateUniqueSlugAux check base suffix 0 = (none, []) := rfl

theorem generateUniqueSlugAux_succ (check : String → Bool) (base : String) (suffix fuel : Nat) :
    generateUniqueSlugAux check base suffix (fuel + 1) =
      if check (base ++ "-" ++ toString suffix) then
        (some (base ++ "-" ++ toString suffix), [base ++ "-" ++ toString suffix])
      else
        ((generateUniqueSlugAux check base (suffix + 1) fuel).1,
          (base ++ "-" ++ toString suffix) :: (generateUniqueSlugAux check base (suffix + 1) fuel).2) := rfl

theorem generateUniqueSlug_zero (check : String → Bool) (name : String) :
    generateUniqueSlug check name 0 = (none, []) := rfl

theorem generateUniqueSlug_succ (check : String → Bool) (name : String) (fuel : Nat) :
    generateUniqueSlug check name (fuel + 1) =
      if check (generateSlug name) then
        (some (generateSlug name), [generateSlug name])
      else
        ((generateUniqueSlugAux check (generateSlug name) 1 fuel).1,
          generateSlug name :: (generateUniqueSlugAux check (generateSlug name) 1 fuel).2) := rfl

theorem slugCandidate_pos (base : String) {k : Nat} (hk : 1 ≤ k) :
    slugCandidate base k = base ++ "-" ++ toString k := by
  cases k with
  | zero => omega
  | succ m => rfl

theorem generateUniqueSlugAux_spec (check : String → Bool) (base : String) :
    ∀ (d fuel suffix : Nat), d < fuel →
      (∀ j, j < d → check (base ++ "-" ++ toString (suffix + j)) = false) →
      check (base ++ "-" ++ toString (suffix + d)) = true →
      generateUniqueSlugAux check base suffix fuel =
        (some (base ++ "-" ++ toString (suffix + d)),
         (List.range (d + 1)).map (fun j => base ++ "-" ++ toString (suffix + j))) := by
  intro d
  induction d with
  | zero =>
    intro fuel suffix hfuel hbefore hd
    cases fuel with
    | zero => omega
    | succ f =>
      rw [Nat.add_zero] at hd
      rw [generateUniqueSlugAux_succ, if_pos hd, Nat.add_zero]
      rfl
  | succ m ih =>
    intro fuel suffix hfuel hbefore hd
    cases fuel with
    | zero => omega
    | succ f =>
      have h0 : check (base ++ "-" ++ toString suffix) = false := by
        have := hbefore 0 (Nat.succ_pos m)
        rwa [Nat.add_zero] at this
      rw [generateUniqueSlugAux_succ, if_neg (by rw [h0]; exact Bool.false_ne_true)]
      have hb2 : ∀ j, j < m → check (base ++ "-" ++ toString (suffix + 1 + j)) = false := by
        intro j hj
        have h5 := hbefore (j + 1) (by omega)
        rwa [show suffix + (j + 1) = suffix + 1 + j by omega] at h5
      have hd2 : check (base ++ "-" ++ toString (suffix + 1 + m)) = true := by
        rwa [show suffix + (m + 1) = suffix + 1 + m by omega] at hd
      rw [ih f (suffix + 1) (by omega) hb2 hd2]
      have he1 : suffix + 1 + m = suffix + (m + 1) := by omega
      rw [he1]
      have he2 : (List.range (m + 1 + 1)).map (fun j => base ++ "-" ++ toString (suffix + j)) =
          (base ++ "-" ++ toString suffix) ::
            (List.range (m + 1)).map (fun j => base ++ "-" ++ toString (suffix + 1 + j)) := by
        rw [List.range_succ_eq_map, List.map_cons, Nat.add_zero, List.map_map]
        refine congrArg _ (List.map_congr_left ?_)
        intro j hj
        simp only [Function.comp]
        rw [show suffix + (j + 1) = suffix + 1 + j by omega]
      rw [he2]

theorem generateUniqueSlug_spec (check : String → Bool) (name : String) (k fuel : Nat)
    (h1 : k < fuel)
    (h2 : ∀ j, j < k → check (slugCandidate (generateSlug name) j) = false)
    (h3 : check (slugCandidate (generateSlug name) k) = true) :
    generateUniqueSlug check name fuel =
      (some (slugCandidate (generateSlug name) k),
       (List.range (k + 1)).map (slugCandidate (generateSlug name))) := by
  cases fuel with
  | zero => omega
  | succ f =>
    cases k with
    | zero =>
      have h3b : check (generateSlug name) = true := h3
      rw [generateUniqueSlug_succ, if_pos h3b]
      rfl
    | succ m =>
      have h0 : check (generateSlug name) = false := h2 0 (Nat.succ_pos m)
      rw [generateUniqueSlug_succ, if_neg (by rw [h0]; exact Bool.false_ne_true)]
      have hb2 : ∀ j, j < m → check (generateSlug name ++ "-" ++ toString (1 + j)) = false := by
        intro j hj
        have h5 := h2 (j + 1) (by omega)
        rw [slugCandidate_pos (generateSlug name) (by omega : 1 ≤ j + 1)] at h5
        rwa [show (1 : Nat) + j = j + 1 by omega]
      have hd2 : check (generateSlug name ++ "-" ++ toString (1 + m)) = true := by
        have h5 := h3
        rw [slugCandidate_pos (generateSlug name) (by omega : 1 ≤ m + 1)] at h5
        rwa [show (1 : Nat) + m = m + 1 by omega]
      rw [generateUniqueSlugAux_spec check (generateSlug name) m f 1 (by omega) hb2 hd2]
      rw [slugCandidate_pos (generateSlug name) (by omega : 1 ≤ m + 1)]
      have he1 : (1 : Nat) + m = m + 1 := by omega
      rw [he1]
      have he2 : (List.range (m + 1 + 1)).map (slugCandidate (generateSlug name)) =
          generateSlug name ::
            (List.range (m + 1)).map (fun j => generateSlug name ++ "-" ++ toString (1 + j)) := by
        rw [List.range_succ_eq_map, List.map_cons, List.map_map]
        have h00 : slugCandidate (generateSlug name) 0 = generateSlug name := rfl
        rw [h00]
        refine congrArg _ (List.map_congr_left ?_)
        intro j hj
        simp only [Function.comp]
        rw [slugCandidate_pos (generateSlug name) (by omega : 1 ≤ j + 1),
          show (1 : Nat) + j = j + 1 by omega]
      rw [he2]

theorem generateUniqueSlugAux_allTaken (base : String) :
    ∀ fuel suffix, (generateUniqueSlugAux (fun _ => false) base suffix fuel).1 = none ∧
      (generateUniqueSlugAux (fun _ => false) base suffix fuel).2.length = fuel := by
  intro fuel
  induction fuel with
  | zero =>
    intro suffix
    exact ⟨rfl, rfl⟩
  | succ f ih =>
    intro suffix
    rw [generateUniqueSlugAux_succ, if_neg (fun h => Bool.noConfusion h)]
    exact ⟨(ih (suffix + 1)).1, by rw [List.length_cons, (ih (suffix + 1)).2]⟩

theorem generateUniqueSlug_allTaken (name : String) (fuel : Nat) :
    (generateUniqueSlug (fun _ => false) name fuel).1 = none ∧
      (generateUniqueSlug (fun _ => false) name fuel).2.length = fuel := by
  cases fuel with
  | zero => exact ⟨rfl, rfl⟩
  | succ f =>
    rw [generateUniqueSlug_succ, if_neg (fun h => Bool.noConfusion h)]
    exact ⟨(generateUniqueSlugAux_allTaken (generateSlug name) f 1).1,
      by rw [List.length_cons, (generateUniqueSlugAux_allTaken (generateSlug name) f 1).2]⟩

theorem generateUniqueSlugAux_some (check : String → Bool) (base : String) :
    ∀ fuel suffix s, 1 ≤ suffix → (generateUniqueSlugAux check base suffix fuel).1 = some s →
      check s = true ∧ ∃ k, 1 ≤ k ∧ s = base ++ "-" ++ toString k := by
  intro fuel
  induction fuel with
  | zero =>
    intro suffix s hsuf h
    exact absurd h (by rw [generateUniqueSlugAux_zero]; exact fun h2 => Option.noConfusion h2)
  | succ f ih =>
    intro suffix s hsuf h
    rw [generateUniqueSlugAux_succ] at h
    by_cases hc : check (base ++ "-" ++ toString suffix) = true
    · rw [if_pos hc] at h
      have hs : s = base ++ "-" ++ toString suffix := (Option.some.inj h).symm
      subst hs
      exact ⟨hc, suffix, hsuf, rfl⟩
    · rw [if_neg hc] at h
      exact ih (suffix + 1) s (by omega) h

theorem generateUniqueSlug_some (check : String → Bool) (name : String) (fuel : Nat) (s : String)
    (h : (generateUniqueSlug check name fuel).1 = some s) :
    check s = true ∧ ∃ k, s = slugCandidate (generateSlug name) k := by
  cases fuel with
  | zero => exact absurd h (fun h2 => Option.noConfusion h2)
  | succ f =>
    rw [generateUniqueSlug_succ] at h
    by_cases hc : check (generateSlug name) = true
    · rw [if_pos hc] at h
      have hs : s = generateSlug name := (Option.some.inj h).symm
      subst hs
      exact ⟨hc, 0, rfl⟩
    · rw [if_neg hc] at h
      obtain ⟨hchk, k, hk, hs⟩ := generateUniqueSlugAux_some check (generateSlug name) f 1 s (Nat.le_refl 1) h
      exact ⟨hchk, k, by rw [hs, slugCandidate_pos (generateSlug name) hk]⟩

theorem generateUniqueSlugAux_trace (check : String → Bool) (base : String) :
    ∀ fuel suffix,
      (generateUniqueSlugAux check base suffix fuel).2 =
        (List.range (generateUniqueSlugAux check base suffix fuel).2.length).map
          (fun j => base ++ "-" ++ toString (suffix + j)) := by
  intro fuel
  induction fuel with
  | zero =>
    intro suffix
    rfl
  | succ f ih =>
    intro suffix
    rw [generateUniqueSlugAux_succ]
    by_cases hc : check (base ++ "-" ++ toString suffix) = true
    · rw [if_pos hc]
      rfl
    · rw [if_neg hc]
      show (base ++ "-" ++ toString suffix) :: (generateUniqueSlugAux check base (suffix + 1) f).2 = _
      rw [ih (suffix + 1)]
      rw [List.length_cons, List.length_map, List.length_range]
      rw [List.range_succ_eq_map, List.map_cons, List.map_map]
      simp only [Nat.add_zero]
      refine congrArg _ ?_
      refine List.map_congr_left ?_
      intro j hj
      simp only [Function.comp]
      rw [show suffix + 1 + j = suffix + (j + 1) by omega]

theorem generateUniqueSlug_trace (check : String → Bool) (name : String) (fuel : Nat) :
    (generateUniqueSlug check name fuel).2 =
      (List.range (generateUniqueSlug check name fuel).2.length).map
        (slugCandidate (generateSlug name)) := by
  cases fuel with
  | zero => rfl
  | succ f =>
    rw [generateUniqueSlug_succ]
    by_cases hc : check (generateSlug name) = true
    · rw [if_pos hc]
      rfl
    · rw [if_neg hc]
      show generateSlug name :: (generateUniqueSlugAux check (generateSlug name) 1 f).2 = _
      rw [generateUniqueSlugAux_trace check (generateSlug name) f 1]
      rw [List.length_cons, List.length_map, List.length_range]
      rw [List.range_succ_eq_map, List.map_cons, List.map_map]
      have h00 : slugCandidate (generateSlug name) 0 = generateSlug name := rfl
      rw [h00]
      refine congrArg _ ?_
      refine List.map_congr_left ?_
      intro j hj
      simp only [Function.comp]
      rw [slugCandidate_pos (generateSlug name) (by omega : 1 ≤ j + 1),
        show (1 : Nat) + j = j + 1 by omega]

theorem noDD_no_double (l r : List Char) : ¬ NoDD (l ++ '-' :: '-' :: r) := by
  intro h
  unfold NoDD at h
  rw [List.chain'_append] at h
  have h2 := h.2.1
  rw [List.chain'_cons] at h2
  exact h2.1 ⟨rfl, rfl⟩

theorem isValidSlug_empty_dash (t : String) : isValidSlug ("" ++ "-" ++ t) = false := by
  show slugMatch false (("" ++ "-" ++ t).data) = false
  have hd : ("" ++ "-" ++ t).data = '-' :: t.data := rfl
  rw [hd, slugMatch_cons, if_pos rfl, Bool.false_and]

/-! Claim theorems. -/

/-- C1: generateUniqueSlug queries the oracle on candidates in exactly the
order base, base-1, base-2, ... (suffix starting at 1, incrementing by 1, no
gaps) and returns the first candidate the oracle reports free, never one it
reported taken: whenever every candidate before index k is reported taken and
candidate k is reported free within the query budget, the resolver returns
candidate k and its query trace is exactly the first k+1 candidates in
order. -/
theorem C1_resolver_order_first_free (check : String → Bool) (name : String) (k fuel : Nat)
    (h1 : k < fuel)
    (h2 : ∀ j, j < k → check (slugCandidate (generateSlug name) j) = false)
    (h3 : check (slugCandidate (generateSlug name) k) = true) :
    generateUniqueSlug check name fuel =
      (some (slugCandidate (generateSlug name) k),
       (List.range (k + 1)).map (slugCandidate (generateSlug name))) :=
  generateUniqueSlug_spec check name k fuel h1 h2 h3

/-- Witness for C1, the scenario of the claim: the oracle reports my-button
taken, my-button-1 taken and my-button-2 free; the resolver returns
my-button-2 after exactly the three queries my-button, my-button-1,
my-button-2 in that order. -/
theorem C1_resolver_order_first_free_witness :
    generateUniqueSlug (fun s => decide (s = "my-button-2")) "My Button!!" 3 =
      (some "my-button-2", ["my-button", "my-button-1", "my-button-2"]) := by
  have h := C1_resolver_order_first_free (fun s => decide (s = "my-button-2")) "My Button!!" 2 3
    (by decide) (by decide) (by decide)
  rw [h]
  decide

/-- C2 counterexample: the loop of generateUniqueSlug has no retry bound.
With an oracle that always reports taken and a budget of 60 queries, it
performs all 60 queries (10 more than the claimed bound of 50) and is still
looping with no result; the source has no ResolutionExhausted outcome at
all — its only outcomes are a resolved slug or further looping. -/
theorem C2_counterexample :
    (generateUniqueSlug (fun _ => false) "my-button" 60).1 = none ∧
      (generateUniqueSlug (fun _ => false) "my-button" 60).2.length = 60 := by
  decide

/-- C2 amended: the suffix-probing loop is unbounded.  For every base name
and every query budget n, an always-taken oracle makes generateUniqueSlug
perform exactly n queries and still be running (no result and no failure
condition of any kind is produced); the loop terminates only when the oracle
eventually reports a candidate free. -/
theorem C2_no_retry_bound (name : String) (fuel : Nat) :
    (generateUniqueSlug (fun _ => false) name fuel).1 = none ∧
      (generateUniqueSlug (fun _ => false) name fuel).2.length = fuel :=
  generateUniqueSlug_allTaken name fuel

/-- C3 counterexample: a failed oracle query is indistinguishable from a
taken candidate: checkSlugUnique returns the plain boolean false on failure,
exactly the value it returns for a reply with one matching row. -/
theorem C3_counterexample :
    checkSlugUnique OracleReply.failure = false ∧
      checkSlugUnique OracleReply.failure = checkSlugUnique (OracleReply.rows 1) := by
  decide

/-- C3 amended: when the oracle query fails, checkSlugUnique logs the error
and returns false, silently treating the candidate as taken; its boolean
result is true exactly for a successful reply with zero matching rows, so no
OracleUnavailable condition distinct from the taken outcome reaches the
caller. -/
theorem C3_failure_treated_as_taken (r : OracleReply) :
    checkSlugUnique r = true ↔ r = OracleReply.rows 0 := by
  cases r with
  | failure => simp [checkSlugUnique]
  | rows n => simp [checkSlugUnique]

/-- C4: for a syntactically invalid candidate, checkSlug reports
available = false with the error Invalid slug format and performs zero
oracle queries; for a syntactically valid candidate it performs exactly one
oracle query. -/
theorem C4_checkSlug_query_policy (check : String → Bool) (slug : String) (st : SlugState) :
    (isValidSlug slug = false →
      checkSlug check slug st = (⟨some false, false, some "Invalid slug format"⟩, 0)) ∧
    (isValidSlug slug = true → (checkSlug check slug st).2 = 1) := by
  constructor
  · intro h
    unfold checkSlug
    rw [if_neg (by rw [h]; exact Bool.false_ne_true)]
  · intro h
    unfold checkSlug
    rw [if_pos h]

/-- Witness for C4: typing Invalid Slug! yields available = false, the error
Invalid slug format and zero oracle queries, while the valid candidate
my-button triggers exactly one query. -/
theorem C4_checkSlug_query_policy_witness :
    checkSlug (fun _ => true) "Invalid Slug!" initialAtoms =
      (⟨some false, false, some "Invalid slug format"⟩, 0) ∧
    (checkSlug (fun _ => true) "my-button" initialAtoms).2 = 1 :=
  ⟨(C4_checkSlug_query_policy (fun _ => true) "Invalid Slug!" initialAtoms).1 (by decide),
   (C4_checkSlug_query_policy (fun _ => true) "my-button" initialAtoms).2 (by decide)⟩

/-- C5 counterexample: two checkSlug calls run concurrently, the first for a
taken slug and the second for a free one; the second query starts after the
first, the reply of the second arrives first (recording available = true) and
the stale reply of the first arrives last.  The stale continuation overwrites
the state of the newer query: the final available is false although the most
recently issued query reported free. -/
theorem C5_counterexample :
    (checkSlugResume false (checkSlugResume true (checkSlugStart (checkSlugStart initialAtoms)))).slugAvailable
        = some false ∧
      (checkSlugResume false (checkSlugResume true (checkSlugStart (checkSlugStart initialAtoms)))).slugAvailable
        ≠ some true := by
  decide

/-- C5 amended: checkSlug has no stale-response guard: whichever oracle reply
is applied last determines the observable state, regardless of the order in
which the queries were issued — a stale reply for a superseded input
overwrites the state written for the newer input. -/
theorem C5_last_arrival_wins (st : SlugState) (uStale uNew : Bool) :
    (checkSlugResume uStale (checkSlugResume uNew st)).slugAvailable = some uStale ∧
      (checkSlugResume uStale (checkSlugResume uNew st)).slugChecking = false :=
  ⟨rfl, rfl⟩

/-- C6 counterexample: the atoms are module level, so a checkSlug run from
one form instance changes the slugAvailable, slugChecking and slugError
state another instance observes: after instance 2 checks an invalid slug,
instance 1 no longer sees the initial state. -/
theorem C6_counterexample :
    useComponentSlugView (checkSlug (fun _ => true) "Bad Slug!" initialAtoms).1 1 ≠
      useComponentSlugView initialAtoms 1 := by
  decide

/-- C6 amended: the availability, checking and error flags live in
module-level shared atoms, so every useComponentSlug instance observes the
one shared store: any two instances always see identical state, and the
state written by a checkSlug run is observed by every instance. -/
theorem C6_state_globally_shared (store : SlugState) (i j : Nat) (check : String → Bool) (slug : String) :
    useComponentSlugView store i = useComponentSlugView store j ∧
      useComponentSlugView (checkSlug check slug store).1 i = (checkSlug check slug store).1 :=
  ⟨rfl, rfl⟩

/-- C7: generateSlug is idempotent: normalizing an already normalized name
changes nothing. -/
theorem C7_generateSlug_idempotent (x : String) :
    generateSlug (generateSlug x) = generateSlug x := by
  rcases generateSlug_valid_or_empty x with h | h
  · exact generateSlug_of_valid h
  · rw [h]
    decide

/-- C8: the output of generateSlug either satisfies isValidSlug or is the
empty string, and it is empty exactly when the input contains no
alphanumeric character; in particular My Button!! normalizes to my-button
and the empty and all-punctuation names normalize to the empty string. -/
theorem C8_generateSlug_valid_or_empty (x : String) :
    (isValidSlug (generateSlug x) = true ∨ generateSlug x = "") ∧
    (generateSlug x = "" ↔ ∀ c ∈ x.data, isAlphanumeric c = false) ∧
    generateSlug "My Button!!" = "my-button" ∧
    generateSlug "" = "" ∧ generateSlug "***" = "" :=
  ⟨generateSlug_valid_or_empty x, generateSlug_empty_iff x, by decide, rfl, by decide⟩

/-- C9: isValidSlug accepts a string exactly when it consists of nonempty
lowercase-alphanumeric segments separated by single hyphens (the language of
its anchored regex); in particular it rejects every string with an uppercase
letter, a leading or trailing hyphen, or a doubled hyphen. -/
theorem C9_validator_iff_regex (s : String) :
    (isValidSlug s = true ↔ RegexSlug s.data) ∧
    ((∃ c ∈ s.data, 'A' ≤ c ∧ c ≤ 'Z') → isValidSlug s = false) ∧
    (s.data.head? = some '-' → isValidSlug s = false) ∧
    (s.data.getLast? = some '-' → isValidSlug s = false) ∧
    (∀ l r, s.data = l ++ '-' :: '-' :: r → isValidSlug s = false) := by
  refine ⟨isValidSlug_iff_regexSlug s, ?_, ?_, ?_, ?_⟩
  · rintro ⟨c, hc, h1, h2⟩
    rw [Bool.eq_false_iff]
    intro hv
    have hr := (slugMatch_eq_true_iff s.data false).mp hv
    exact absurd (hr.2.1 c hc) (by rw [slugOrDash_upper_false h1 h2]; exact Bool.false_ne_true)
  · intro hh
    rw [Bool.eq_false_iff]
    intro hv
    exact ((slugMatch_eq_true_iff s.data false).mp hv).1 rfl |>.2 hh
  · intro hl
    rw [Bool.eq_false_iff]
    intro hv
    exact ((slugMatch_eq_true_iff s.data false).mp hv).2.2.1 hl
  · intro l r hlr
    rw [Bool.eq_false_iff]
    intro hv
    have hdd := ((slugMatch_eq_true_iff s.data false).mp hv).2.2.2
    rw [hlr] at hdd
    exact noDD_no_double l r hdd

/-- Witness for C9: a-b is accepted via its grammar derivation, and Ab, -ab,
ab- and a--b are each rejected for the corresponding reason. -/
theorem C9_validator_iff_regex_witness :
    isValidSlug "a-b" = true ∧ isValidSlug "Ab" = false ∧ isValidSlug "-ab" = false ∧
      isValidSlug "ab-" = false ∧ isValidSlug "a--b" = false := by
  have hreg : RegexSlug ("a-b".data) := by
    show RegexSlug (['a'] ++ '-' :: ['b'])
    exact RegexSlug.cons ['a'] ['b'] (by simp) (by decide)
      (RegexSlug.seg ['b'] (by simp) (by decide))
  exact ⟨(C9_validator_iff_regex "a-b").1.mpr hreg,
    (C9_validator_iff_regex "Ab").2.1 ⟨'A', by decide, by decide, by decide⟩,
    (C9_validator_iff_regex "-ab").2.2.1 (by decide),
    (C9_validator_iff_regex "ab-").2.2.2.1 (by decide),
    (C9_validator_iff_regex "a--b").2.2.2.2 ['a'] ['b'] (by decide)⟩

/-- C10: for a name with no alphanumeric characters the normalized base is
empty, so the resolver submits the empty string and then -1, -2, ... to the
oracle, and whatever slug it returns fails isValidSlug — no fallback base is
supplied. -/
theorem C10_empty_base_invalid (check : String → Bool) (name : String) (fuel : Nat)
    (h : ∀ c ∈ name.data, isAlphanumeric c = false) :
    (generateUniqueSlug check name fuel).2 =
      (List.range (generateUniqueSlug check name fuel).2.length).map (slugCandidate "") ∧
    ∀ s, (generateUniqueSlug check name fuel).1 = some s → isValidSlug s = false := by
  have hb : generateSlug name = "" := (generateSlug_empty_iff name).mpr h
  constructor
  · have ht := generateUniqueSlug_trace check name fuel
    rwa [hb] at ht
  · intro s hs
    obtain ⟨-, k, hk⟩ := generateUniqueSlug_some check name fuel s hs
    rw [hb] at hk
    subst hk
    cases k with
    | zero => decide
    | succ m =>
      show isValidSlug ("" ++ "-" ++ toString (m + 1)) = false
      exact isValidSlug_empty_dash _

/-- Witness for C10: with the all-punctuation name, the oracle reporting the
first two candidates taken, the resolver returns -2, which fails the
validator. -/
theorem C10_empty_base_invalid_witness : isValidSlug "-2" = false :=
  (C10_empty_base_invalid (fun s => decide (s = "-2")) "***" 3 (by decide)).2 "-2" (by decide)
